import Mathlib

/-!
Verification development for the UrJTAG interconnect walking-pattern script
(`walkin__sample_use_partid_cli_time.py`).

Shallow embedding conventions:
* a Python scan string of `'0'`/`'1'` characters is a `List Bool`
  (`true` = `'1'`); string slicing/concatenation becomes `take`/`drop`/`++`;
* Python string reversal `s[::-1]` is `List.reverse`;
* the per-bit BSDL dictionary `bit_info_dict` (a Python `dict` with `int`
  keys) is an association list `List (Nat × PinInfo)`; the source always
  iterates it through `sorted(bit_info_dict.items())`, so functions below
  take the association list in that already-sorted order (a Python `dict`
  has distinct keys, hence the sorted item list has strictly ascending
  keys — theorems that depend on the order take this as a hypothesis);
* Python code that can raise on bad vector indices is modelled with
  `Except VectorError`;
* hardware round-trips (`urc.get_dr_out_string()` readbacks) are an
  oracle `Nat → List Bool` giving the bits each SAMPLE shift returns.
-/

namespace Walkin

/-- One value of `bit_info_dict` in the source: the per-bit record built by
`get_dictionary_from_bsdl`.  `io_type` is kept as the raw direction-code
string (`"O"`, `"I"`, `"B"`, `"C"`) exactly as the source compares it;
`control_bit` and `disable_value` model the `int(...)` conversions the
source applies at use sites (`disable_value` is a single bit). -/
structure PinInfo where
  io_type : String
  safe_value : String
  pin_name : String
  control_bit : Option Nat
  disable_value : Option Bool
  disable_status : Option String
deriving DecidableEq, Repr

/-- The `bit_info_dict` mapping bit index to per-bit record, as the sorted
association list the source iterates. -/
abbrev PinMap := List (Nat × PinInfo)

/-- First-match association-list lookup; models Python `dict[key]` /
`key in dict` on the dictionaries the script builds (keys are unique). -/
def alookup {α β : Type} [DecidableEq α] (k : α) : List (α × β) → Option β
  | [] => none
  | (a, b) :: l => if a = k then some b else alookup k l

/-- Python `dict[bit] = value` on an insertion-ordered dict: overwrite in
place when the key exists, append otherwise. -/
def dictInsertPin (d : PinMap) (k : Nat) (v : PinInfo) : PinMap :=
  if (alookup k d).isSome then d.map (fun p => if p.1 = k then (k, v) else p)
  else d ++ [(k, v)]

/-- Core of `get_dictionary_from_bsdl` (source lines 259-290).  File I/O and
line lexing are abstracted away: the input is the list of already-split
`bit`-line records (bit index plus fields), in file order, and the function
folds them into the dictionary with the source's two inclusion branches;
every other record is dropped silently. -/
def get_dictionary_from_bsdl (records : List (Nat × PinInfo)) : PinMap :=
  records.foldl
    (fun d p =>
      if p.2.pin_name ≠ "*" ∧ (p.2.io_type = "O" ∨ p.2.io_type = "I" ∨ p.2.io_type = "B") then
        dictInsertPin d p.1 p.2
      else if p.2.pin_name = "*" ∧ p.2.io_type = "C" then
        dictInsertPin d p.1 p.2
      else d)
    []

/-- Models `set_bits` (source lines 415-428):
`output_string[:bit_position] + str(bit_value) + output_string[bit_position+1:]`.
Python slices clamp, so an out-of-range position silently appends the bit at
the end instead of failing. -/
def set_bits (output_string : List Bool) (bit_position : Nat) (bit_value : Bool) : List Bool :=
  output_string.take bit_position ++ [bit_value] ++ output_string.drop (bit_position + 1)

/-- The source's test `info['io_type'] == 'O' or info['io_type'] == 'B'`
selecting the pins that get walked. -/
def isOB (info : PinInfo) : Bool :=
  info.io_type = "O" || info.io_type = "B"

/-- The body shared by the two generators (source lines 448-458 and 481-494):
set the pin's own data bit to `v`, then, when both a control bit and a
disable value are present, set the control bit to the enable value
`1 XOR disable_value`. -/
def pinWrites (s : List Bool) (bit : Nat) (info : PinInfo) (v : Bool) : List Bool :=
  let s1 := set_bits s bit v
  match info.control_bit, info.disable_value with
  | some cb, some dv => set_bits s1 cb (!dv)
  | _, _ => s1

/-- The control-bit index a pin actually gets driven through: present only
when both `control_bit` and `disable_value` are set (otherwise the source
performs no control write). -/
def gatedControl (info : PinInfo) : Option Nat :=
  match info.control_bit, info.disable_value with
  | some cb, some _ => some cb
  | _, _ => none

/-- Models `get_walkin_zeros_or_once_setup_string` (source lines 464-496).
`dr_in` models `urc.get_dr_in_string()`, the device's current register
snapshot.  For every O/B pin the data bit is driven to `value XOR 1` and the
control bit (when gated) to the enable value; the result is reversed once at
the transport boundary. -/
def get_walkin_zeros_or_once_setup_string (dr_in : List Bool) (bit_info : PinMap)
    (value : Bool) : List Bool :=
  (bit_info.foldl
    (fun output_string p =>
      if isOB p.2 then pinWrites output_string p.1 p.2 (!value) else output_string)
    dr_in).reverse

/-- Models `get_list_of_walkins_output_string` (source lines 431-461).  For every
O/B pin, start again from `walkin_string[::-1]` (so each element is
independent, not cumulative), set that pin's data bit to `value` and its
control bit (when gated) to the enable value, and append the re-reversed
result. -/
def get_list_of_walkins_output_string (bit_info : PinMap) (walkin_string : List Bool)
    (value : Bool) : List (List Bool) :=
  bit_info.foldl
    (fun dr_in_string_list p =>
      if isOB p.2 then
        dr_in_string_list ++ [(pinWrites walkin_string.reverse p.1 p.2 value).reverse]
      else dr_in_string_list)
    []

/-- Failure of the change detector: Python raises `IndexError` when the
comprehension in `dr_out_changes_lookup` indexes past the end of
`data_bits_new`. -/
inductive VectorError where
  | indexError
deriving DecidableEq, Repr

/-- The comprehension of `dr_out_changes_lookup` (source line 528):
`[(i, old[i], new[i]) for i in range(len(old)) if old[i] != new[i]]`.
Every `i in range(len(old))` evaluates `new[i]`, so a shorter `new` raises
`IndexError`; a longer `new` is silently truncated to `len(old)`. -/
def differingBits (old new : List Bool) :
    Except VectorError (List (Nat × Bool × Bool)) :=
  if old.length ≤ new.length then
    .ok ((old.zip new).enum.filterMap
      (fun p => if p.2.1 ≠ p.2.2 then some (p.1, p.2.1, p.2.2) else none))
  else .error .indexError

/-- Loop body of `dr_out_changes_lookup` (source lines 535-548): a differing
bit contributes to the summary only when its index is in the BSDL dictionary
and its old value matches the walk direction (`'1'` in a walking-zeros pass,
`'0'` in a walking-ones pass). -/
def attrBody (bsdl : PinMap) (walkin_state : Int)
    (acc : List String × List (Bool × Bool)) (d : Nat × Bool × Bool) :
    List String × List (Bool × Bool) :=
  match alookup d.1 bsdl with
  | none => acc
  | some info =>
    let acc1 :=
      if walkin_state = 0 ∧ d.2.1 = true then
        (acc.1 ++ [info.pin_name], acc.2 ++ [(d.2.1, d.2.2)])
      else acc
    if walkin_state = 1 ∧ d.2.1 = false then
      (acc1.1 ++ [info.pin_name], acc1.2 ++ [(d.2.1, d.2.2)])
    else acc1

/-- Models `dr_out_changes_lookup` (source lines 503-548).  Returns the pair of
lists the source stores under `summary_dict[key]` (attributed pin names) and
`summary_dict[key + "io"]` (their transitions, as `(old, new)` pairs). -/
def dr_out_changes_lookup (old new : List Bool) (bsdl : PinMap)
    (walkin_state : Int) : Except VectorError (List String × List (Bool × Bool)) :=
  match differingBits old new with
  | .error e => .error e
  | .ok diffs => .ok (diffs.foldl (attrBody bsdl walkin_state) ([], []))

/-- One `summary_dict` appended to the global `summary_list` per walking
step.  `extestNames`/`extestTrans` model the `"extest"` and its transitions
key, `sampleNames`/`sampleTrans` the `"sample"` keys (the source appends the
two lists of each side in lockstep, so they always have equal length). -/
structure StepSummary where
  extestNames : List String
  extestTrans : List (Bool × Bool)
  sampleNames : List String
  sampleTrans : List (Bool × Bool)
deriving DecidableEq, Repr

/-- Models `set_urc_bits` (source lines 572-612).  For each walking vector: shift it
in under EXTEST, diff it against the previous EXTEST state (both reversed to
logical order), then shift DR under SAMPLE and diff the readback against the
previous SAMPLE state; append the step's summary record.  `readback` is the
oracle of `urc.get_dr_out_string()` results (one per step); the recursive
call shifts it.  A Python `IndexError` in either diff aborts the loop. -/
def set_urc_bits (bits_string_list : List (List Bool)) (bit_info : PinMap)
    (dr_init_bits : List Bool) (sample_bsdl : PinMap) (readback : Nat → List Bool)
    (dr_init_bits_sample : List Bool) (walkin_state : Int)
    (summary_list : List StepSummary) : Except VectorError (List StepSummary) :=
  match bits_string_list with
  | [] => .ok summary_list
  | bits_string :: rest =>
    match dr_out_changes_lookup dr_init_bits.reverse bits_string.reverse bit_info walkin_state with
    | .error e => .error e
    | .ok ex =>
      let dr_bits_new := readback 0
      match dr_out_changes_lookup dr_init_bits_sample.reverse dr_bits_new.reverse sample_bsdl walkin_state with
      | .error e => .error e
      | .ok sm =>
        set_urc_bits rest bit_info bits_string sample_bsdl (fun i => readback (i + 1))
          dr_bits_new walkin_state
          (summary_list ++ [⟨ex.1, ex.2, sm.1, sm.2⟩])

/-- The verdict printed per driver pin by `view_summary`; `single` is the
source's `"Partial"` line (one match only), `notConnected` its
`"Not connected"` line. -/
inductive Verdict where
  | connected (target : String)
  | interference
  | single
  | notConnected
deriving DecidableEq, Repr

/-- The accumulating `summary_chain_dict` of `view_summary`: driver pin name
to list of matched observed pin names, insertion ordered. -/
abbrev ChainDict := List (String × List String)

/-- Models `if summary_dict["extest"][index] not in summary_chain_dict: ... = []`
(source lines 712-713). -/
def dictInit (d : ChainDict) (k : String) : ChainDict :=
  if (alookup k d).isSome then d else d ++ [(k, [])]

/-- Models `summary_chain_dict[key].append(x)` (source lines 718 and 723). -/
def dictAppend (d : ChainDict) (k : String) (x : String) : ChainDict :=
  d.map (fun p => if p.1 = k then (p.1, p.2 ++ [x]) else p)

/-- Body of `view_summary`'s outer accumulation (source lines 710-723) for
one `(driver name, driver transition)` index of a step: initialise the
chain-dict entry, then, when the driver transition is `0 -> 1` (resp.
`1 -> 0`), append every observed pin whose transition is also `0 -> 1`
(resp. `1 -> 0`). -/
def processIndex (step : StepSummary) (d : ChainDict) (p : String × (Bool × Bool)) :
    ChainDict :=
  let d1 := dictInit d p.1
  if p.2 = (false, true) then
    (step.sampleNames.zip step.sampleTrans).foldl
      (fun d2 q => if q.2 = (false, true) then dictAppend d2 p.1 q.1 else d2) d1
  else if p.2 = (true, false) then
    (step.sampleNames.zip step.sampleTrans).foldl
      (fun d2 q => if q.2 = (true, false) then dictAppend d2 p.1 q.1 else d2) d1
  else d1

/-- One step of `view_summary`'s outer loop: iterate the step's attributed
driver transitions in order.  (The source indexes `extest` by positions of
`extestio`; the zip form is the same thing on the equal-length lists the
program records.) -/
def processStep (d : ChainDict) (step : StepSummary) : ChainDict :=
  (step.extestNames.zip step.extestTrans).foldl (processIndex step) d

/-- The `summary_chain_dict` built by `view_summary` (source lines 709-723)
from the whole session's summary list. -/
def buildChainDict (summary_list : List StepSummary) : ChainDict :=
  summary_list.foldl processStep []

/-- The verdict branch of `view_summary` (source lines 726-739): exactly two
identical matches print the matched pin (connected); more than two print
`Interference`; exactly one prints `Partial`; anything else prints
`Not connected`. -/
def classifyList (L : List String) : Verdict :=
  if L.length = 2 ∧ L.getD 0 "" = L.getD 1 "" then .connected (L.getD 0 "")
  else if 2 < L.length then .interference
  else if L.length = 1 then .single
  else .notConnected

/-- Models `view_summary` (source lines 687-741) as a state transformer on the
global `summary_list`: it computes and prints the chain dictionary but never
assigns the global, so the accumulator it returns is unchanged. -/
def view_summary (summary_list : List StepSummary) : ChainDict × List StepSummary :=
  (buildChainDict summary_list, summary_list)

/-- The summary phase of `main`'s session loop (source lines 941-945):
`view_summary()` followed by the reset `summary_list = []`. -/
def main_summary_phase (summary_list : List StepSummary) :
    ChainDict × List StepSummary :=
  ((view_summary summary_list).1, [])

/-- Minimal-width binary digits of `n`, most significant first (what Python
`format(n, 'b')` produces, with `natBits 0 = []`); `fuel` bounds the
recursion so the definition is structural and kernel-computable. -/
def natBitsAux : Nat → Nat → List Bool
  | 0, _ => []
  | _ + 1, 0 => []
  | fuel + 1, n + 1 => natBitsAux fuel ((n + 1) / 2) ++ [decide ((n + 1) % 2 = 1)]

/-- Binary digits of `n`, most significant first, empty for `0`. -/
def natBits (n : Nat) : List Bool :=
  natBitsAux n n

/-- Models `decimal_to_32bit_binary` (source lines 137-152): `format(n, '032b')` —
the binary representation left-padded with zeros to width 32, but NOT
truncated when `n` needs more than 32 bits. -/
def decimal_to_32bit_binary (n : Nat) : List Bool :=
  List.replicate (32 - (natBits n).length) false ++ natBits n

/-- The numeric value of a most-significant-first bit string. -/
def binToNat (l : List Bool) : Nat :=
  l.foldl (fun a b => 2 * a + (if b then 1 else 0)) 0

/-- Models `main`'s stepping-id slice (source line 853-854): `binary[:4]`. -/
def stepping_id (n : Nat) : List Bool :=
  (decimal_to_32bit_binary n).take 4

/-- Models `main`'s parts-id slice (source line 856-857): `binary[4:20]`. -/
def parts_id (n : Nat) : List Bool :=
  ((decimal_to_32bit_binary n).drop 4).take 16

/-- Models `main`'s manufacturer-id slice (source line 859-860): `binary[20:31]`. -/
def manufacture_id (n : Nat) : List Bool :=
  ((decimal_to_32bit_binary n).drop 20).take 11

/-! Claim-side definitions, written from the specification's words, used only
to compare the code's behaviour against the spec (refinement). -/

/-- Modelled from the spec (§4.4 directional filter, claim C3): the
attributed records are exactly the differing bits whose old value matches
the pass direction (`req`) and whose index resolves in the pin map, in
ascending index order; returned as the (names, transitions) pair. -/
def claimAttributed (old new : List Bool) (bsdl : PinMap) (req : Bool) :
    List String × List (Bool × Bool) :=
  let diffs := (old.zip new).enum.filterMap
    (fun p => if p.2.1 ≠ p.2.2 then some (p.1, p.2.1, p.2.2) else none)
  let att := diffs.filterMap
    (fun d => if d.2.1 = req then (alookup d.1 bsdl).map (fun info => (info.pin_name, d.2)) else none)
  (att.map Prod.fst, att.map Prod.snd)

/-- The observed-pin names one driver transition `t` collects in
`view_summary`'s inner loops: the matching-direction observed pins when `t`
is `0 -> 1` or `1 -> 0`, nothing otherwise.  Characterises `processIndex`. -/
def branchMatches (step : StepSummary) (t : Bool × Bool) : List String :=
  if t = (false, true) ∨ t = (true, false) then
    (step.sampleNames.zip step.sampleTrans).filterMap
      (fun q => if q.2 = t then some q.1 else none)
  else []

/-- The observed-pin names one step appends to driver pin `k`'s chain-dict
entry: the concatenation of `branchMatches` over `k`'s attributed
transitions in that step.  Characterises `processStep`. -/
def stepMatchesCode (step : StepSummary) (k : String) : List String :=
  (step.extestNames.zip step.extestTrans).foldl
    (fun a p => if p.1 = k then a ++ branchMatches step p.2 else a) []

/-- The full match list the chain dict accumulates for driver pin `k`
across a session.  Characterises `buildChainDict`. -/
def sessionMatches (summary_list : List StepSummary) (k : String) : List String :=
  summary_list.foldl (fun acc step => acc ++ stepMatchesCode step k) []

/-- Modelled from the spec (§4.5, claim C1): the matched observed pins one
step contributes to driver pin `k` — for each attributed driver transition
of `k`, every observed pin whose transition direction equals the driver's. -/
def claimStepMatches (step : StepSummary) (k : String) : List String :=
  (step.extestNames.zip step.extestTrans).foldl
    (fun a p =>
      if p.1 = k then
        a ++ (step.sampleNames.zip step.sampleTrans).filterMap
          (fun q => if q.2 = p.2 then some q.1 else none)
      else a) []

/-- Modelled from the spec (§4.5, claim C1): the accumulated match list `L`
for driver pin `k` across all walking steps of the session. -/
def claimMatched (summary_list : List StepSummary) (k : String) : List String :=
  summary_list.foldl (fun acc step => acc ++ claimStepMatches step k) []

/-- Modelled from the spec's verdict table (§4.5, claim C1). -/
def claimVerdict (L : List String) : Verdict :=
  if L.length = 2 then
    if L.getD 0 "" = L.getD 1 "" then .connected (L.getD 0 "") else .notConnected
  else if 2 < L.length then .interference
  else if L.length = 1 then .single
  else .notConnected


/-- The (pin name, transition) pairs `dr_out_changes_lookup` attributes from
a list of differing bits: those resolving in the pin map whose old value
matches the pass direction `req`.  Helper for stating the fold's result. -/
def attFilter (bsdl : PinMap) (req : Bool) (diffs : List (Nat × Bool × Bool)) :
    List (String × (Bool × Bool)) :=
  diffs.filterMap
    (fun d => if d.2.1 = req then (alookup d.1 bsdl).map (fun info => (info.pin_name, d.2)) else none)

end Walkin
namespace Walkin

/-! ### Vector codec lemmas -/

@[simp] theorem set_bits_nil (i : Nat) (v : Bool) : set_bits [] i v = [v] := by
  simp [set_bits]

@[simp] theorem set_bits_cons_zero (a : Bool) (l : List Bool) (v : Bool) :
    set_bits (a :: l) 0 v = v :: l := by
  simp [set_bits]

@[simp] theorem set_bits_cons_succ (a : Bool) (l : List Bool) (i : Nat) (v : Bool) :
    set_bits (a :: l) (i + 1) v = a :: set_bits l i v := by
  simp [set_bits]

theorem set_bits_length {l : List Bool} {i : Nat} (v : Bool) (h : i < l.length) :
    (set_bits l i v).length = l.length := by
  induction l generalizing i with
  | nil => simp at h
  | cons a t ih =>
    cases i with
    | zero => simp
    | succ i =>
      simp only [List.length_cons, Nat.succ_lt_succ_iff] at h
      simp [ih h]

theorem set_bits_getElem_self {l : List Bool} {i : Nat} (v : Bool) (h : i < l.length) :
    (set_bits l i v)[i]? = some v := by
  induction l generalizing i with
  | nil => simp at h
  | cons a t ih =>
    cases i with
    | zero => simp
    | succ i =>
      simp only [List.length_cons, Nat.succ_lt_succ_iff] at h
      simp [ih h]

theorem set_bits_getElem_ne {l : List Bool} {i : Nat} (v : Bool) (h : i < l.length)
    {j : Nat} (hj : j ≠ i) : (set_bits l i v)[j]? = l[j]? := by
  induction l generalizing i j with
  | nil => simp at h
  | cons a t ih =>
    cases i with
    | zero =>
      cases j with
      | zero => exact absurd rfl hj
      | succ j => simp
    | succ i =>
      simp only [List.length_cons, Nat.succ_lt_succ_iff] at h
      cases j with
      | zero => simp
      | succ j =>
        have hj' : j ≠ i := fun he => hj (by simp [he])
        simp [ih h hj']

theorem set_bits_append {l : List Bool} {i : Nat} (v : Bool) (h : l.length ≤ i) :
    set_bits l i v = l ++ [v] := by
  induction l generalizing i with
  | nil => simp
  | cons a t ih =>
    cases i with
    | zero => simp at h
    | succ i =>
      simp only [List.length_cons, Nat.succ_le_succ_iff] at h
      simp [ih h]

/-! ### Claim C4 -/

/-- C4 counterexample: the claim states that `set_bits` fails with
`IndexOutOfRange` whenever the index is at least the vector length.  The
source never fails: Python slicing clamps, so at index 5 of the 2-bit vector
`"00"` it silently returns the 3-bit vector `"001"` (the value appended at
the end, not even at position 5). -/
theorem claim_C4_counterexample :
    set_bits [false, false] 5 true = [false, false, true] := by
  decide

/-- C4 (amended): for an index below the vector length, `set_bits` returns a
vector identical to the input except that the index holds the given value;
for an index at or past the length it does not fail but returns the input
with the value appended at the end. -/
theorem claim_C4_amended (l : List Bool) (i : Nat) (v : Bool) :
    (i < l.length →
      (set_bits l i v).length = l.length ∧ (set_bits l i v)[i]? = some v ∧
        ∀ j, j ≠ i → (set_bits l i v)[j]? = l[j]?) ∧
    (l.length ≤ i → set_bits l i v = l ++ [v]) := by
  constructor
  · intro h
    exact ⟨set_bits_length v h, set_bits_getElem_self v h, fun j hj => set_bits_getElem_ne v h hj⟩
  · intro h
    exact set_bits_append v h

/-- C4 witness: the amended claim instantiated at the vector `"010"`,
index 2, value `'1'`. -/
theorem claim_C4_witness :
    2 < ([false, true, false] : List Bool).length ∧
      ((set_bits [false, true, false] 2 true).length = ([false, true, false] : List Bool).length ∧
        (set_bits [false, true, false] 2 true)[2]? = some true ∧
        ∀ j, j ≠ 2 → (set_bits [false, true, false] 2 true)[j]? = ([false, true, false] : List Bool)[j]?) :=
  ⟨by decide, (claim_C4_amended [false, true, false] 2 true).1 (by decide)⟩

end Walkin
namespace Walkin

/-! ### Change detector lemmas -/

theorem zip_take_length {α β : Type} (l1 : List α) (l2 : List β) :
    l1.zip (l2.take l1.length) = l1.zip l2 := by
  induction l1 generalizing l2 with
  | nil => simp
  | cons a t ih =>
    cases l2 with
    | nil => simp
    | cons b t2 => simp [ih]

theorem attr_fold_spec (bsdl : PinMap) (ws : Int) (req : Bool)
    (hws : (ws = 0 ∧ req = true) ∨ (ws = 1 ∧ req = false)) :
    ∀ (diffs : List (Nat × Bool × Bool)) (acc : List String × List (Bool × Bool)),
      diffs.foldl (attrBody bsdl ws) acc =
        (acc.1 ++ (attFilter bsdl req diffs).map Prod.fst,
         acc.2 ++ (attFilter bsdl req diffs).map Prod.snd) := by
  intro diffs
  induction diffs with
  | nil => intro acc; simp [attFilter]
  | cons d diffs ih =>
    intro acc
    rw [List.foldl_cons, ih]
    rcases hws with ⟨hw, hr⟩ | ⟨hw, hr⟩ <;> subst hw <;> subst hr <;>
      cases hl : alookup d.1 bsdl <;> by_cases hov : d.2.1 = true <;>
        simp [attrBody, attFilter, hl, hov, Prod.ext_iff, List.filterMap_cons]

/-! ### Claim C5 -/

/-- C5 counterexample: the claim states the change detector fails whenever
the two snapshot lengths differ.  With an old snapshot of length 1 and a new
snapshot of length 2 it does not fail: it silently compares only the 1-bit
prefix and returns an empty change summary. -/
theorem claim_C5_counterexample :
    dr_out_changes_lookup [false] [false, true] [] 0 = .ok ([], []) := rfl

/-- C5 (amended): the change detector fails (with the Python `IndexError`
the spec classes as a length-mismatch defect) exactly when the new snapshot
is shorter than the old one; when the new snapshot is at least as long, it
silently compares only the prefix of the old snapshot's length. -/
theorem claim_C5_amended (old new : List Bool) (bsdl : PinMap) (ws : Int) :
    (dr_out_changes_lookup old new bsdl ws = .error .indexError ↔
      new.length < old.length) ∧
    (old.length ≤ new.length →
      dr_out_changes_lookup old new bsdl ws =
        dr_out_changes_lookup old (new.take old.length) bsdl ws) := by
  constructor
  · unfold dr_out_changes_lookup differingBits
    by_cases h : old.length ≤ new.length
    · rw [if_pos h]; simp; omega
    · rw [if_neg h]; simp; omega
  · intro h
    unfold dr_out_changes_lookup differingBits
    have hlen : old.length ≤ (new.take old.length).length := by
      simp [Nat.le_min]; omega
    rw [if_pos h, if_pos hlen, zip_take_length]

/-- C5 witness: the amended claim instantiated at concrete snapshots — a
shorter new snapshot (error case) and a longer one (silent prefix case). -/
theorem claim_C5_witness :
    (dr_out_changes_lookup [true, true] [true] [] 0 = .error .indexError ↔
      ([true] : List Bool).length < ([true, true] : List Bool).length) ∧
    dr_out_changes_lookup [true] [true, false] [] 0 =
      dr_out_changes_lookup [true] (([true, false] : List Bool).take ([true] : List Bool).length) [] 0 :=
  ⟨(claim_C5_amended [true, true] [true] [] 0).1,
   (claim_C5_amended [true] [true, false] [] 0).2 (by decide)⟩

/-! ### Claim C3 -/

theorem claimAttributed_eq (old new : List Bool) (bsdl : PinMap) (req : Bool) :
    claimAttributed old new bsdl req =
      ((attFilter bsdl req ((old.zip new).enum.filterMap
          (fun p => if p.2.1 ≠ p.2.2 then some (p.1, p.2.1, p.2.2) else none))).map Prod.fst,
       (attFilter bsdl req ((old.zip new).enum.filterMap
          (fun p => if p.2.1 ≠ p.2.2 then some (p.1, p.2.1, p.2.2) else none))).map Prod.snd) := rfl

/-- C3: when populating a step summary from equal-or-longer snapshots, a
walking-zeros pass attributes exactly the differing bits with old value
`'1'` that resolve in the pin map, and a walking-ones pass exactly those
with old value `'0'`; every other differing bit contributes nothing. -/
theorem claim_C3_directional_filter (old new : List Bool) (bsdl : PinMap)
    (h : old.length ≤ new.length) :
    dr_out_changes_lookup old new bsdl 0 = .ok (claimAttributed old new bsdl true) ∧
    dr_out_changes_lookup old new bsdl 1 = .ok (claimAttributed old new bsdl false) := by
  unfold dr_out_changes_lookup differingBits
  rw [if_pos h]
  dsimp only
  constructor
  · rw [attr_fold_spec bsdl 0 true (Or.inl ⟨rfl, rfl⟩), claimAttributed_eq]
    simp
  · rw [attr_fold_spec bsdl 1 false (Or.inr ⟨rfl, rfl⟩), claimAttributed_eq]
    simp

/-- C3 witness: the directional filter instantiated at concrete snapshots
with one `1 -> 0` and one `0 -> 1` differing bit, both in the pin map. -/
theorem claim_C3_witness :
    ([true, false] : List Bool).length ≤ ([false, true] : List Bool).length ∧
      (dr_out_changes_lookup [true, false] [false, true]
          [(0, ⟨"O", "0", "P0", none, none, none⟩), (1, ⟨"I", "0", "P1", none, none, none⟩)] 0 =
        .ok (claimAttributed [true, false] [false, true]
          [(0, ⟨"O", "0", "P0", none, none, none⟩), (1, ⟨"I", "0", "P1", none, none, none⟩)] true) ∧
       dr_out_changes_lookup [true, false] [false, true]
          [(0, ⟨"O", "0", "P0", none, none, none⟩), (1, ⟨"I", "0", "P1", none, none, none⟩)] 1 =
        .ok (claimAttributed [true, false] [false, true]
          [(0, ⟨"O", "0", "P0", none, none, none⟩), (1, ⟨"I", "0", "P1", none, none, none⟩)] false)) :=
  ⟨by decide,
   claim_C3_directional_filter [true, false] [false, true]
     [(0, ⟨"O", "0", "P0", none, none, none⟩), (1, ⟨"I", "0", "P1", none, none, none⟩)] (by decide)⟩

end Walkin
namespace Walkin

/-! ### Pin-map construction lemmas -/

theorem alookup_map_replace_isSome (d : PinMap) (k : Nat) (v : PinInfo) (b : Nat) :
    (alookup b (d.map (fun p => if p.1 = k then (k, v) else p))).isSome =
      (alookup b d).isSome := by
  induction d with
  | nil => simp [alookup]
  | cons q t ih =>
    simp only [List.map_cons]
    by_cases hq : q.1 = k
    · rw [if_pos hq]
      simp only [alookup]
      by_cases hb : k = b
      · rw [if_pos hb, if_pos (hq.trans hb)]
        rfl
      · rw [if_neg hb, if_neg (fun h => hb (hq.symm.trans h))]
        exact ih
    · rw [if_neg hq]
      simp only [alookup]
      by_cases hb : q.1 = b
      · rw [if_pos hb, if_pos hb]
      · rw [if_neg hb, if_neg hb]
        exact ih

theorem alookup_append_single_isSome (d : PinMap) (k : Nat) (v : PinInfo) (b : Nat) :
    (alookup b (d ++ [(k, v)])).isSome ↔ (alookup b d).isSome ∨ k = b := by
  induction d with
  | nil => by_cases hb : k = b <;> simp [alookup, hb]
  | cons q t ih =>
    by_cases hb : q.1 = b
    · simp [alookup, hb]
    · simp [alookup, hb, ih]

theorem alookup_dictInsertPin_isSome (d : PinMap) (k : Nat) (v : PinInfo) (b : Nat) :
    (alookup b (dictInsertPin d k v)).isSome ↔ k = b ∨ (alookup b d).isSome := by
  unfold dictInsertPin
  by_cases hp : (alookup k d).isSome
  · rw [if_pos hp, alookup_map_replace_isSome]
    constructor
    · exact fun h => Or.inr h
    · rintro (h | h)
      · rwa [← h]
      · exact h
  · rw [if_neg hp, alookup_append_single_isSome]
    tauto

theorem bsdl_fold_isSome (records : List (Nat × PinInfo)) (d : PinMap) (b : Nat) :
    (alookup b (records.foldl
      (fun d p =>
        if p.2.pin_name ≠ "*" ∧ (p.2.io_type = "O" ∨ p.2.io_type = "I" ∨ p.2.io_type = "B") then
          dictInsertPin d p.1 p.2
        else if p.2.pin_name = "*" ∧ p.2.io_type = "C" then
          dictInsertPin d p.1 p.2
        else d) d)).isSome ↔
      (alookup b d).isSome ∨
        ∃ p ∈ records, p.1 = b ∧
          (p.2.pin_name ≠ "*" ∧ (p.2.io_type = "O" ∨ p.2.io_type = "I" ∨ p.2.io_type = "B") ∨
            p.2.pin_name = "*" ∧ p.2.io_type = "C") := by
  induction records generalizing d with
  | nil => simp
  | cons r t ih =>
    rw [List.foldl_cons]
    by_cases h1 : r.2.pin_name ≠ "*" ∧ (r.2.io_type = "O" ∨ r.2.io_type = "I" ∨ r.2.io_type = "B")
    · rw [if_pos h1, ih, alookup_dictInsertPin_isSome]
      constructor
      · rintro ((h | h) | ⟨p, hp, hb, hc⟩)
        · exact Or.inr ⟨r, by simp, h, Or.inl h1⟩
        · exact Or.inl h
        · exact Or.inr ⟨p, by simp [hp], hb, hc⟩
      · rintro (h | ⟨p, hp, hb, hc⟩)
        · exact Or.inl (Or.inr h)
        · rcases List.mem_cons.mp hp with h | h
          · exact Or.inl (Or.inl (h ▸ hb))
          · exact Or.inr ⟨p, h, hb, hc⟩
    · rw [if_neg h1]
      by_cases h2 : r.2.pin_name = "*" ∧ r.2.io_type = "C"
      · rw [if_pos h2, ih, alookup_dictInsertPin_isSome]
        constructor
        · rintro ((h | h) | ⟨p, hp, hb, hc⟩)
          · exact Or.inr ⟨r, by simp, h, Or.inr h2⟩
          · exact Or.inl h
          · exact Or.inr ⟨p, by simp [hp], hb, hc⟩
        · rintro (h | ⟨p, hp, hb, hc⟩)
          · exact Or.inl (Or.inr h)
          · rcases List.mem_cons.mp hp with h | h
            · exact Or.inl (Or.inl (h ▸ hb))
            · exact Or.inr ⟨p, h, hb, hc⟩
      · rw [if_neg h2, ih]
        constructor
        · rintro (h | ⟨p, hp, hb, hc⟩)
          · exact Or.inl h
          · exact Or.inr ⟨p, by simp [hp], hb, hc⟩
        · rintro (h | ⟨p, hp, hb, hc⟩)
          · exact Or.inl h
          · rcases List.mem_cons.mp hp with h | h
            · subst h
              rcases hc with hc | hc
              · exact absurd ⟨hc.1, hc.2⟩ h1
              · exact absurd ⟨hc.1, hc.2⟩ h2
            · exact Or.inr ⟨p, h, hb, hc⟩

/-! ### Claim C7 -/

/-- C7: Pin-map construction keeps a raw per-bit record (the bit index gets
an entry) if and only if its direction code is `O`, `I` or `B` with a pin
name other than `"*"`, or its direction code is `C` with pin name `"*"`;
every other combination — including a Control cell with a real pin name —
is dropped silently. -/
theorem claim_C7_bsdl_filter (records : List (Nat × PinInfo)) (b : Nat) :
    (alookup b (get_dictionary_from_bsdl records)).isSome ↔
      ∃ p ∈ records, p.1 = b ∧
        (p.2.pin_name ≠ "*" ∧ (p.2.io_type = "O" ∨ p.2.io_type = "I" ∨ p.2.io_type = "B") ∨
          p.2.pin_name = "*" ∧ p.2.io_type = "C") := by
  unfold get_dictionary_from_bsdl
  rw [bsdl_fold_isSome]
  simp [alookup]

end Walkin
namespace Walkin

/-! ### Binary-representation lemmas -/

theorem binFold_eq (l : List Bool) (a : Nat) :
    l.foldl (fun a b => 2 * a + (if b then 1 else 0)) a = a * 2 ^ l.length + binToNat l := by
  induction l generalizing a with
  | nil => simp [binToNat]
  | cons b t ih =>
    rw [List.foldl_cons]
    have hrhs : binToNat (b :: t) = (if b then 1 else 0) * 2 ^ t.length + binToNat t := by
      rw [binToNat, List.foldl_cons]
      rw [show (2 * 0 + (if b then 1 else 0)) = (if b then 1 else 0) by omega]
      exact ih _
    rw [ih, hrhs, List.length_cons, pow_succ]
    ring

theorem binToNat_append (l1 l2 : List Bool) :
    binToNat (l1 ++ l2) = binToNat l1 * 2 ^ l2.length + binToNat l2 := by
  rw [binToNat, List.foldl_append, binFold_eq]
  rfl

theorem binToNat_lt (l : List Bool) : binToNat l < 2 ^ l.length := by
  induction l with
  | nil => simp [binToNat]
  | cons b t ih =>
    have h : binToNat (b :: t) = (if b then 1 else 0) * 2 ^ t.length + binToNat t := by
      rw [binToNat, List.foldl_cons]
      rw [show (2 * 0 + (if b then 1 else 0)) = (if b then 1 else 0) by omega]
      exact binFold_eq t _
    rw [h, List.length_cons, pow_succ]
    have hb : (if b then 1 else 0) ≤ 1 := by split <;> omega
    have hp : (0:Nat) < 2 ^ t.length := Nat.pos_pow_of_pos _ (by omega)
    nlinarith

theorem binToNat_replicate_false (m : Nat) :
    binToNat (List.replicate m false) = 0 := by
  induction m with
  | zero => rfl
  | succ m ih =>
    rw [List.replicate_succ, binToNat, List.foldl_cons]
    simpa [binToNat] using ih

theorem binToNat_natBitsAux (fuel : Nat) :
    ∀ n, n ≤ fuel → binToNat (natBitsAux fuel n) = n := by
  induction fuel with
  | zero =>
    intro n hn
    interval_cases n
    rfl
  | succ fuel ih =>
    intro n hn
    match n with
    | 0 => rfl
    | m + 1 =>
      rw [natBitsAux, binToNat_append]
      have hdiv : (m + 1) / 2 ≤ fuel := by omega
      rw [ih _ hdiv]
      have hbit : binToNat [decide ((m + 1) % 2 = 1)] = (m + 1) % 2 := by
        by_cases h2 : (m + 1) % 2 = 1
        · simp [h2, binToNat]
        · have : (m + 1) % 2 = 0 := by omega
          simp [this, binToNat]
      rw [hbit]
      simp only [List.length_cons, List.length_nil, pow_one]
      omega

theorem natBits_val (n : Nat) : binToNat (natBits n) = n :=
  binToNat_natBitsAux n n le_rfl

theorem natBitsAux_length_le (fuel : Nat) :
    ∀ n k, n ≤ fuel → n < 2 ^ k → (natBitsAux fuel n).length ≤ k := by
  induction fuel with
  | zero =>
    intro n k hn _
    interval_cases n
    simp [natBitsAux]
  | succ fuel ih =>
    intro n k hn hk
    match n with
    | 0 => simp [natBitsAux]
    | m + 1 =>
      match k with
      | 0 => simp at hk
      | j + 1 =>
        rw [natBitsAux, List.length_append]
        have hd : (m + 1) / 2 < 2 ^ j := by
          have h2 : (2:Nat) ^ (j + 1) = 2 * 2 ^ j := by rw [pow_succ]; ring
          omega
        have := ih ((m + 1) / 2) j (by omega) hd
        simp only [List.length_cons, List.length_nil]
        omega

theorem natBits_length_le (n : Nat) (h : n < 2 ^ 32) : (natBits n).length ≤ 32 :=
  natBitsAux_length_le n n 32 le_rfl h

theorem dec32_length (n : Nat) (h : n < 2 ^ 32) :
    (decimal_to_32bit_binary n).length = 32 := by
  have := natBits_length_le n h
  simp only [decimal_to_32bit_binary, List.length_append, List.length_replicate]
  omega

theorem dec32_val (n : Nat) : binToNat (decimal_to_32bit_binary n) = n := by
  rw [decimal_to_32bit_binary, binToNat_append, binToNat_replicate_false, natBits_val]
  omega

end Walkin
namespace Walkin

/-! ### Claim C8 -/

/-- C8 counterexample: the claim asserts the extracted fields are
independent of register bits above bit 31.  `format(n, '032b')` does not
truncate: for the device ID `2 ^ 32` the binary string is 33 characters
long, so the stepping slice `[:4]` reads the top 4 bits of the 33-bit
string (value 8) instead of bits 31-28 of the low 32 bits (value 0). -/
theorem claim_C8_counterexample :
    binToNat (stepping_id 4294967296) ≠ binToNat (stepping_id (4294967296 % 2 ^ 32)) := by
  decide

/-- C8 (amended): for device IDs below `2 ^ 32` the slices taken by `main`
are exactly stepping = bits 31-28, part = bits 27-12 and manufacturer =
bits 11-1 of the 32-bit binary representation (4, 16 and 11 bits wide
respectively); for larger register values the slices shift and the claimed
independence fails. -/
theorem claim_C8_amended (n : Nat) (h : n < 2 ^ 32) :
    binToNat (stepping_id n) = n / 2 ^ 28 % 2 ^ 4 ∧
    binToNat (parts_id n) = n / 2 ^ 12 % 2 ^ 16 ∧
    binToNat (manufacture_id n) = n / 2 % 2 ^ 11 ∧
    (stepping_id n).length = 4 ∧ (parts_id n).length = 16 ∧
    (manufacture_id n).length = 11 := by
  have hl : (decimal_to_32bit_binary n).length = 32 := dec32_length n h
  have hv : binToNat (decimal_to_32bit_binary n) = n := dec32_val n
  set l := decimal_to_32bit_binary n with hldef
  -- first split: stepping ++ rest
  have hsplit1 : l = l.take 4 ++ l.drop 4 := (List.take_append_drop 4 l).symm
  have hlen_take4 : (l.take 4).length = 4 := by rw [List.length_take, hl]; norm_num
  have hlen_drop4 : (l.drop 4).length = 28 := by rw [List.length_drop, hl]
  have h1 : n = binToNat (l.take 4) * 2 ^ 28 + binToNat (l.drop 4) := by
    conv_lhs => rw [← hv, hsplit1]
    rw [binToNat_append, hlen_drop4]
  have b1 : binToNat (l.take 4) < 2 ^ 4 := by
    have := binToNat_lt (l.take 4); rwa [hlen_take4] at this
  have b2 : binToNat (l.drop 4) < 2 ^ 28 := by
    have := binToNat_lt (l.drop 4); rwa [hlen_drop4] at this
  -- second split: part ++ rest
  have hdd16 : (l.drop 4).drop 16 = l.drop 20 := by
    rw [List.drop_drop]
  have hsplit2 : l.drop 4 = (l.drop 4).take 16 ++ l.drop 20 := by
    conv_lhs => rw [← List.take_append_drop 16 (l.drop 4)]
    rw [hdd16]
  have hlen_part : ((l.drop 4).take 16).length = 16 := by
    rw [List.length_take, hlen_drop4]; norm_num
  have hlen_drop20 : (l.drop 20).length = 12 := by rw [List.length_drop, hl]
  have h2 : binToNat (l.drop 4) = binToNat ((l.drop 4).take 16) * 2 ^ 12 + binToNat (l.drop 20) := by
    conv_lhs => rw [hsplit2]
    rw [binToNat_append, hlen_drop20]
  have b3 : binToNat ((l.drop 4).take 16) < 2 ^ 16 := by
    have := binToNat_lt ((l.drop 4).take 16); rwa [hlen_part] at this
  have b4 : binToNat (l.drop 20) < 2 ^ 12 := by
    have := binToNat_lt (l.drop 20); rwa [hlen_drop20] at this
  -- third split: manufacturer ++ last bit
  have hdd11 : (l.drop 20).drop 11 = l.drop 31 := by
    rw [List.drop_drop]
  have hsplit3 : l.drop 20 = (l.drop 20).take 11 ++ l.drop 31 := by
    conv_lhs => rw [← List.take_append_drop 11 (l.drop 20)]
    rw [hdd11]
  have hlen_manu : ((l.drop 20).take 11).length = 11 := by
    rw [List.length_take, hlen_drop20]; norm_num
  have hlen_drop31 : (l.drop 31).length = 1 := by rw [List.length_drop, hl]
  have h3 : binToNat (l.drop 20) = binToNat ((l.drop 20).take 11) * 2 ^ 1 + binToNat (l.drop 31) := by
    conv_lhs => rw [hsplit3]
    rw [binToNat_append, hlen_drop31]
  have b5 : binToNat ((l.drop 20).take 11) < 2 ^ 11 := by
    have := binToNat_lt ((l.drop 20).take 11); rwa [hlen_manu] at this
  have b6 : binToNat (l.drop 31) < 2 ^ 1 := by
    have := binToNat_lt (l.drop 31); rwa [hlen_drop31] at this
  have hstep : stepping_id n = l.take 4 := rfl
  have hpart : parts_id n = (l.drop 4).take 16 := rfl
  have hmanu : manufacture_id n = (l.drop 20).take 11 := rfl
  rw [hstep, hpart, hmanu]
  refine ⟨?_, ?_, ?_, hlen_take4, hlen_part, hlen_manu⟩ <;>
    · norm_num at h1 h2 h3 b1 b2 b3 b4 b5 b6 ⊢
      omega

/-- C8 witness: the amended extraction instantiated at the 32-bit device ID
`0xDEADBEEF`. -/
theorem claim_C8_witness :
    3735928559 < 2 ^ 32 ∧
      (binToNat (stepping_id 3735928559) = 3735928559 / 2 ^ 28 % 2 ^ 4 ∧
        binToNat (parts_id 3735928559) = 3735928559 / 2 ^ 12 % 2 ^ 16 ∧
        binToNat (manufacture_id 3735928559) = 3735928559 / 2 % 2 ^ 11 ∧
        (stepping_id 3735928559).length = 4 ∧ (parts_id 3735928559).length = 16 ∧
        (manufacture_id 3735928559).length = 11) :=
  ⟨by norm_num, claim_C8_amended 3735928559 (by norm_num)⟩

end Walkin
namespace Walkin

/-! ### Walk-generator lemmas -/

theorem pinWrites_length {s : List Bool} {bit : Nat} {info : PinInfo} (v : Bool)
    (hb : bit < s.length) (hc : ∀ c, gatedControl info = some c → c < s.length) :
    (pinWrites s bit info v).length = s.length := by
  cases hcb : info.control_bit with
  | none => simp [pinWrites, hcb, set_bits_length v hb]
  | some c =>
    cases hdv : info.disable_value with
    | none => simp [pinWrites, hcb, hdv, set_bits_length v hb]
    | some dv =>
      have hcr : c < s.length := hc c (by simp [gatedControl, hcb, hdv])
      have h1 : (set_bits s bit v).length = s.length := set_bits_length v hb
      simp [pinWrites, hcb, hdv, set_bits_length _ (h1 ▸ hcr), h1]

theorem pinWrites_getElem_data {s : List Bool} {bit : Nat} {info : PinInfo} (v : Bool)
    (hb : bit < s.length) (hc : ∀ c, gatedControl info = some c → c < s.length ∧ c ≠ bit) :
    (pinWrites s bit info v)[bit]? = some v := by
  cases hcb : info.control_bit with
  | none => simp [pinWrites, hcb, set_bits_getElem_self v hb]
  | some c =>
    cases hdv : info.disable_value with
    | none => simp [pinWrites, hcb, hdv, set_bits_getElem_self v hb]
    | some dv =>
      obtain ⟨hcr, hcne⟩ := hc c (by simp [gatedControl, hcb, hdv])
      have h1 : (set_bits s bit v).length = s.length := set_bits_length v hb
      simp only [pinWrites, hcb, hdv]
      rw [set_bits_getElem_ne _ (h1 ▸ hcr) (Ne.symm hcne)]
      exact set_bits_getElem_self v hb

theorem pinWrites_getElem_other {s : List Bool} {bit : Nat} {info : PinInfo} (v : Bool)
    {j : Nat} (hb : bit < s.length) (hj : j ≠ bit)
    (hc : ∀ c, gatedControl info = some c → c < s.length ∧ j ≠ c) :
    (pinWrites s bit info v)[j]? = s[j]? := by
  cases hcb : info.control_bit with
  | none => simp [pinWrites, hcb, set_bits_getElem_ne v hb hj]
  | some c =>
    cases hdv : info.disable_value with
    | none => simp [pinWrites, hcb, hdv, set_bits_getElem_ne v hb hj]
    | some dv =>
      obtain ⟨hcr, hjc⟩ := hc c (by simp [gatedControl, hcb, hdv])
      have h1 : (set_bits s bit v).length = s.length := set_bits_length v hb
      simp only [pinWrites, hcb, hdv]
      rw [set_bits_getElem_ne _ (h1 ▸ hcr) hjc, set_bits_getElem_ne v hb hj]

theorem get_list_fold_eq (walkin_string : List Bool) (value : Bool) :
    ∀ (l : PinMap) (acc : List (List Bool)),
      l.foldl
        (fun dr_in_string_list p =>
          if isOB p.2 then
            dr_in_string_list ++ [(pinWrites walkin_string.reverse p.1 p.2 value).reverse]
          else dr_in_string_list)
        acc =
      acc ++ (l.filter (fun p => isOB p.2)).map
        (fun p => (pinWrites walkin_string.reverse p.1 p.2 value).reverse) := by
  intro l
  induction l with
  | nil => intro acc; simp
  | cons q t ih =>
    intro acc
    rw [List.foldl_cons]
    by_cases hq : isOB q.2
    · rw [if_pos hq, ih, List.filter_cons_of_pos (by simpa using hq)]
      simp
    · rw [if_neg hq, ih, List.filter_cons_of_neg (by simpa using hq)]

theorem get_list_eq_map (bit_info : PinMap) (walkin_string : List Bool) (value : Bool) :
    get_list_of_walkins_output_string bit_info walkin_string value =
      (bit_info.filter (fun p => isOB p.2)).map
        (fun p => (pinWrites walkin_string.reverse p.1 p.2 value).reverse) := by
  unfold get_list_of_walkins_output_string
  rw [get_list_fold_eq]
  rfl

/-! ### Claim C2 -/

/-- C2: for a pin map (sorted ascending, with in-range data and control
bits, control bits distinct from their pin's own data bit) and a baseline
vector that rests every walked pin at the complement of the walk level, the
per-pin walking generator returns exactly one vector per output or
bidirectional pin, in ascending bit-index order; each vector is built
independently from the baseline and agrees with it everywhere except its
own pin's data bit — which holds the walk level, the opposite of the
baseline's bit — and, when the pin is gated, at most its own control bit. -/
theorem claim_C2_walk_isolation (bit_info : PinMap) (walkin_string : List Bool) (value : Bool)
    (hsort : List.Pairwise (fun a b => a.1 < b.1) bit_info)
    (hwf : ∀ p ∈ bit_info, isOB p.2 = true →
      p.1 < walkin_string.length ∧
      walkin_string.reverse[p.1]? = some (!value) ∧
      ∀ cb, gatedControl p.2 = some cb → cb < walkin_string.length ∧ cb ≠ p.1) :
    (get_list_of_walkins_output_string bit_info walkin_string value).length =
        (bit_info.filter (fun p => isOB p.2)).length ∧
      List.Pairwise (· < ·) ((bit_info.filter (fun p => isOB p.2)).map Prod.fst) ∧
      ∀ (k : Nat) (p : Nat × PinInfo) (vec : List Bool), (bit_info.filter (fun p => isOB p.2))[k]? = some p →
        (get_list_of_walkins_output_string bit_info walkin_string value)[k]? = some vec →
        vec.length = walkin_string.length ∧
        vec.reverse[p.1]? = some value ∧
        walkin_string.reverse[p.1]? = some (!value) ∧
        ∀ j, j ≠ p.1 → (∀ cb, gatedControl p.2 = some cb → j ≠ cb) →
          vec.reverse[j]? = walkin_string.reverse[j]? := by
  rw [get_list_eq_map]
  refine ⟨by rw [List.length_map], ?_, ?_⟩
  · exact (hsort.filter _).map Prod.fst (fun a b h => h)
  · intro k p vec hp hvec
    have hpm : p ∈ bit_info.filter (fun p => isOB p.2) := List.getElem?_mem hp
    have hpb : p ∈ bit_info := (List.mem_filter.mp hpm).1
    have hob : isOB p.2 = true := by simpa using (List.mem_filter.mp hpm).2
    obtain ⟨hb, hbase, hctrl⟩ := hwf p hpb hob
    have hb' : p.1 < walkin_string.reverse.length := by rwa [List.length_reverse]
    have hctrl' : ∀ c, gatedControl p.2 = some c → c < walkin_string.reverse.length ∧ c ≠ p.1 := by
      intro c hc
      obtain ⟨h1, h2⟩ := hctrl c hc
      exact ⟨by rwa [List.length_reverse], h2⟩
    have hveq : vec = (pinWrites walkin_string.reverse p.1 p.2 value).reverse := by
      rw [List.getElem?_map, hp] at hvec
      simpa using hvec.symm
    subst hveq
    rw [List.reverse_reverse]
    refine ⟨?_, ?_, hbase, ?_⟩
    · rw [List.length_reverse,
        pinWrites_length value hb' (fun c hc => (hctrl' c hc).1), List.length_reverse]
    · exact pinWrites_getElem_data value hb' hctrl'
    · intro j hj hjc
      exact pinWrites_getElem_other value hb' hj
        (fun c hc => ⟨(hctrl' c hc).1, hjc c hc⟩)

end Walkin
namespace Walkin

/-- C2 witness: the walk-isolation theorem instantiated at a concrete
three-cell pin map (output, input, bidirectional) and the matching
walking-zeros baseline. -/
theorem claim_C2_witness :
    (List.Pairwise (fun a b => a.1 < b.1)
        ([(0, ⟨"O", "0", "P0", none, none, none⟩), (1, ⟨"I", "0", "P1", none, none, none⟩),
          (2, ⟨"B", "0", "P2", none, none, none⟩)] : PinMap) ∧
      ∀ p ∈ ([(0, ⟨"O", "0", "P0", none, none, none⟩), (1, ⟨"I", "0", "P1", none, none, none⟩),
          (2, ⟨"B", "0", "P2", none, none, none⟩)] : PinMap), isOB p.2 = true →
        p.1 < ([true, false, true] : List Bool).length ∧
        ([true, false, true] : List Bool).reverse[p.1]? = some (!false) ∧
        ∀ cb, gatedControl p.2 = some cb → cb < ([true, false, true] : List Bool).length ∧ cb ≠ p.1) ∧
    ((get_list_of_walkins_output_string
        [(0, ⟨"O", "0", "P0", none, none, none⟩), (1, ⟨"I", "0", "P1", none, none, none⟩),
          (2, ⟨"B", "0", "P2", none, none, none⟩)] [true, false, true] false).length =
        (([(0, ⟨"O", "0", "P0", none, none, none⟩), (1, ⟨"I", "0", "P1", none, none, none⟩),
          (2, ⟨"B", "0", "P2", none, none, none⟩)] : PinMap).filter (fun p => isOB p.2)).length ∧
      List.Pairwise (· < ·)
        ((([(0, ⟨"O", "0", "P0", none, none, none⟩), (1, ⟨"I", "0", "P1", none, none, none⟩),
          (2, ⟨"B", "0", "P2", none, none, none⟩)] : PinMap).filter (fun p => isOB p.2)).map Prod.fst) ∧
      ∀ (k : Nat) (p : Nat × PinInfo) (vec : List Bool),
        (([(0, ⟨"O", "0", "P0", none, none, none⟩), (1, ⟨"I", "0", "P1", none, none, none⟩),
          (2, ⟨"B", "0", "P2", none, none, none⟩)] : PinMap).filter (fun p => isOB p.2))[k]? = some p →
        (get_list_of_walkins_output_string
          [(0, ⟨"O", "0", "P0", none, none, none⟩), (1, ⟨"I", "0", "P1", none, none, none⟩),
            (2, ⟨"B", "0", "P2", none, none, none⟩)] [true, false, true] false)[k]? = some vec →
        vec.length = ([true, false, true] : List Bool).length ∧
        vec.reverse[p.1]? = some false ∧
        ([true, false, true] : List Bool).reverse[p.1]? = some (!false) ∧
        ∀ j, j ≠ p.1 → (∀ cb, gatedControl p.2 = some cb → j ≠ cb) →
          vec.reverse[j]? = ([true, false, true] : List Bool).reverse[j]?) :=
  ⟨⟨by decide, by simp [isOB, gatedControl]⟩,
    claim_C2_walk_isolation
      [(0, ⟨"O", "0", "P0", none, none, none⟩), (1, ⟨"I", "0", "P1", none, none, none⟩),
        (2, ⟨"B", "0", "P2", none, none, none⟩)] [true, false, true] false
      (by decide) (by simp [isOB, gatedControl])⟩

/-! ### Setup-string (baseline) fold lemmas -/

theorem pinWrites_keep {s : List Bool} {bit : Nat} {info : PinInfo} (v : Bool) {cb : Nat}
    (hb : bit < s.length) (hbne : bit ≠ cb)
    (hc : ∀ c, gatedControl info = some c → c < s.length)
    (hdv : gatedControl info = some cb → info.disable_value = some true)
    (hcb : s[cb]? = some false) :
    (pinWrites s bit info v)[cb]? = some false := by
  cases hcbit : info.control_bit with
  | none => simp [pinWrites, hcbit, set_bits_getElem_ne v hb (Ne.symm hbne), hcb]
  | some c =>
    cases hd : info.disable_value with
    | none => simp [pinWrites, hcbit, hd, set_bits_getElem_ne v hb (Ne.symm hbne), hcb]
    | some dv =>
      have hg : gatedControl info = some c := by simp [gatedControl, hcbit, hd]
      have hcr : c < s.length := hc c hg
      have h1 : (set_bits s bit v).length = s.length := set_bits_length v hb
      simp only [pinWrites, hcbit, hd]
      by_cases hcc : c = cb
      · subst hcc
        have : dv = true := by
          have := hdv hg
          rw [hd] at this
          simpa using this
        subst this
        exact set_bits_getElem_self _ (h1 ▸ hcr)
      · rw [set_bits_getElem_ne _ (h1 ▸ hcr) (fun he => hcc he.symm),
          set_bits_getElem_ne v hb (Ne.symm hbne)]
        exact hcb

theorem pinWrites_estab {s : List Bool} {bit : Nat} {info : PinInfo} (v : Bool) {cb : Nat}
    (hb : bit < s.length) (hc : ∀ c, gatedControl info = some c → c < s.length)
    (hg : gatedControl info = some cb) (hdv : info.disable_value = some true) :
    (pinWrites s bit info v)[cb]? = some false := by
  cases hcbit : info.control_bit with
  | none => simp [gatedControl, hcbit] at hg
  | some c =>
    cases hd : info.disable_value with
    | none => simp [gatedControl, hcbit, hd] at hg
    | some dv =>
      have hceq : c = cb := by simpa [gatedControl, hcbit, hd] using hg
      have hdveq : dv = true := by
        rw [hd] at hdv
        simpa using hdv
      subst hceq
      subst hdveq
      have h1 : (set_bits s bit v).length = s.length := set_bits_length v hb
      simp only [pinWrites, hcbit, hd]
      exact set_bits_getElem_self _ (h1 ▸ hc c (by simp [gatedControl, hcbit, hd]))

theorem setup_fold_length (value : Bool) :
    ∀ (l : PinMap) (s : List Bool),
      (∀ p ∈ l, isOB p.2 = true →
        p.1 < s.length ∧ ∀ c, gatedControl p.2 = some c → c < s.length) →
      (l.foldl
        (fun output_string p =>
          if isOB p.2 then pinWrites output_string p.1 p.2 (!value) else output_string)
        s).length = s.length := by
  intro l
  induction l with
  | nil => intro s _; rfl
  | cons q t ih =>
    intro s hr
    rw [List.foldl_cons]
    by_cases hq : isOB q.2
    · rw [if_pos hq]
      obtain ⟨hb, hc⟩ := hr q (by simp) (by simpa using hq)
      have hlen : (pinWrites s q.1 q.2 (!value)).length = s.length :=
        pinWrites_length _ hb hc
      rw [ih _ (by rw [hlen]; exact fun p hp hob => hr p (by simp [hp]) hob), hlen]
    · rw [if_neg hq]
      exact ih _ (fun p hp hob => hr p (by simp [hp]) hob)

theorem setup_fold_keep (value : Bool) (cb : Nat) :
    ∀ (l : PinMap) (s : List Bool),
      (∀ p ∈ l, isOB p.2 = true →
        p.1 < s.length ∧ ∀ c, gatedControl p.2 = some c → c < s.length) →
      (∀ p ∈ l, isOB p.2 = true → p.1 ≠ cb) →
      (∀ p ∈ l, isOB p.2 = true → gatedControl p.2 = some cb → p.2.disable_value = some true) →
      s[cb]? = some false →
      (l.foldl
        (fun output_string p =>
          if isOB p.2 then pinWrites output_string p.1 p.2 (!value) else output_string)
        s)[cb]? = some false := by
  intro l
  induction l with
  | nil => intro s _ _ _ h; exact h
  | cons q t ih =>
    intro s hr hn hs h
    rw [List.foldl_cons]
    by_cases hq : isOB q.2
    · rw [if_pos hq]
      obtain ⟨hb, hc⟩ := hr q (by simp) (by simpa using hq)
      have hlen : (pinWrites s q.1 q.2 (!value)).length = s.length :=
        pinWrites_length _ hb hc
      refine ih _ (by rw [hlen]; exact fun p hp hob => hr p (by simp [hp]) hob)
        (fun p hp hob => hn p (by simp [hp]) hob)
        (fun p hp hob => hs p (by simp [hp]) hob) ?_
      exact pinWrites_keep _ hb (hn q (by simp) (by simpa using hq)) hc
        (hs q (by simp) (by simpa using hq)) h
    · rw [if_neg hq]
      exact ih _ (fun p hp hob => hr p (by simp [hp]) hob)
        (fun p hp hob => hn p (by simp [hp]) hob)
        (fun p hp hob => hs p (by simp [hp]) hob) h

theorem setup_fold_estab (value : Bool) (cb : Nat) :
    ∀ (l : PinMap) (s : List Bool),
      (∀ p ∈ l, isOB p.2 = true →
        p.1 < s.length ∧ ∀ c, gatedControl p.2 = some c → c < s.length) →
      (∀ p ∈ l, isOB p.2 = true → p.1 ≠ cb) →
      (∀ p ∈ l, isOB p.2 = true → gatedControl p.2 = some cb → p.2.disable_value = some true) →
      (∃ p ∈ l, isOB p.2 = true ∧ gatedControl p.2 = some cb) →
      (l.foldl
        (fun output_string p =>
          if isOB p.2 then pinWrites output_string p.1 p.2 (!value) else output_string)
        s)[cb]? = some false := by
  intro l
  induction l with
  | nil => rintro s _ _ _ ⟨p, hp, _⟩; simp at hp
  | cons q t ih =>
    rintro s hr hn hs ⟨p, hp, hob, hg⟩
    rw [List.foldl_cons]
    rcases List.mem_cons.mp hp with rfl | hpt
    · rw [if_pos (by simpa using hob)]
      obtain ⟨hb, hc⟩ := hr p (by simp) hob
      have hlen : (pinWrites s p.1 p.2 (!value)).length = s.length :=
        pinWrites_length _ hb hc
      refine setup_fold_keep value cb t _
        (by rw [hlen]; exact fun r hrr hob' => hr r (by simp [hrr]) hob')
        (fun r hrr hob' => hn r (by simp [hrr]) hob')
        (fun r hrr hob' => hs r (by simp [hrr]) hob') ?_
      exact pinWrites_estab _ hb hc hg (hs p (by simp) hob hg)
    · by_cases hq : isOB q.2
      · rw [if_pos hq]
        obtain ⟨hb, hc⟩ := hr q (by simp) (by simpa using hq)
        have hlen : (pinWrites s q.1 q.2 (!value)).length = s.length :=
          pinWrites_length _ hb hc
        exact ih _ (by rw [hlen]; exact fun r hrr hob' => hr r (by simp [hrr]) hob')
          (fun r hrr hob' => hn r (by simp [hrr]) hob')
          (fun r hrr hob' => hs r (by simp [hrr]) hob')
          ⟨p, hpt, hob, hg⟩
      · rw [if_neg hq]
        exact ih _ (fun r hrr hob' => hr r (by simp [hrr]) hob')
          (fun r hrr hob' => hn r (by simp [hrr]) hob')
          (fun r hrr hob' => hs r (by simp [hrr]) hob')
          ⟨p, hpt, hob, hg⟩

end Walkin
namespace Walkin

/-! ### Claim C6 -/

/-- C6: for a gated output/bidirectional pin with `disable_value = '1'` (in
a pin map whose data and control bits are in range, whose walked data bits
avoid that control position, and whose pins sharing that control cell agree
on the disable value), every generated vector — the baseline for either walk
level and every per-pin walking vector — holds `'0'`, the enable value
`1 XOR disable_value`, at that control bit (read in logical order). -/
theorem claim_C6_gated_enable (bit_info : PinMap) (dr_in : List Bool) (value : Bool) (cb : Nat)
    (hr : ∀ p ∈ bit_info, isOB p.2 = true →
      p.1 < dr_in.length ∧ ∀ c, gatedControl p.2 = some c → c < dr_in.length)
    (hn : ∀ p ∈ bit_info, isOB p.2 = true → p.1 ≠ cb)
    (hs : ∀ p ∈ bit_info, isOB p.2 = true → gatedControl p.2 = some cb →
      p.2.disable_value = some true)
    (hex : ∃ p ∈ bit_info, isOB p.2 = true ∧ gatedControl p.2 = some cb) :
    (get_walkin_zeros_or_once_setup_string dr_in bit_info value).reverse[cb]? = some false ∧
      ∀ w ∈ get_list_of_walkins_output_string bit_info
          (get_walkin_zeros_or_once_setup_string dr_in bit_info value) value,
        w.reverse[cb]? = some false := by
  have hbase :
      (get_walkin_zeros_or_once_setup_string dr_in bit_info value).reverse[cb]? = some false := by
    unfold get_walkin_zeros_or_once_setup_string
    rw [List.reverse_reverse]
    exact setup_fold_estab value cb bit_info dr_in hr hn hs hex
  refine ⟨hbase, ?_⟩
  intro w hw
  rw [get_list_eq_map] at hw
  obtain ⟨p, hpf, hweq⟩ := List.mem_map.mp hw
  have hpb : p ∈ bit_info := (List.mem_filter.mp hpf).1
  have hob : isOB p.2 = true := by simpa using (List.mem_filter.mp hpf).2
  obtain ⟨hb, hc⟩ := hr p hpb hob
  have hFlen :
      (get_walkin_zeros_or_once_setup_string dr_in bit_info value).reverse.length =
        dr_in.length := by
    unfold get_walkin_zeros_or_once_setup_string
    rw [List.reverse_reverse]
    exact setup_fold_length value bit_info dr_in hr
  rw [← hweq, List.reverse_reverse]
  exact pinWrites_keep value (hFlen ▸ hb) (hn p hpb hob)
    (fun c hgc => hFlen ▸ hc c hgc) (hs p hpb hob) hbase

/-- C6 witness: the gated-pin enable policy instantiated at a pin map with
one gated output pin (control bit 2, disable value `'1'`) over a four-bit
register, for the walking-ones level. -/
theorem claim_C6_witness :
    ((∀ p ∈ ([(0, ⟨"O", "1", "P0", some 2, some true, some "Z"⟩),
          (1, ⟨"I", "0", "P1", none, none, none⟩),
          (3, ⟨"B", "0", "P3", none, none, none⟩)] : PinMap), isOB p.2 = true →
        p.1 < ([true, true, true, true] : List Bool).length ∧
        ∀ c, gatedControl p.2 = some c → c < ([true, true, true, true] : List Bool).length) ∧
      (∃ p ∈ ([(0, ⟨"O", "1", "P0", some 2, some true, some "Z"⟩),
          (1, ⟨"I", "0", "P1", none, none, none⟩),
          (3, ⟨"B", "0", "P3", none, none, none⟩)] : PinMap),
        isOB p.2 = true ∧ gatedControl p.2 = some 2)) ∧
    ((get_walkin_zeros_or_once_setup_string [true, true, true, true]
        [(0, ⟨"O", "1", "P0", some 2, some true, some "Z"⟩),
          (1, ⟨"I", "0", "P1", none, none, none⟩),
          (3, ⟨"B", "0", "P3", none, none, none⟩)] true).reverse[2]? = some false ∧
      ∀ w ∈ get_list_of_walkins_output_string
          [(0, ⟨"O", "1", "P0", some 2, some true, some "Z"⟩),
            (1, ⟨"I", "0", "P1", none, none, none⟩),
            (3, ⟨"B", "0", "P3", none, none, none⟩)]
          (get_walkin_zeros_or_once_setup_string [true, true, true, true]
            [(0, ⟨"O", "1", "P0", some 2, some true, some "Z"⟩),
              (1, ⟨"I", "0", "P1", none, none, none⟩),
              (3, ⟨"B", "0", "P3", none, none, none⟩)] true) true,
        w.reverse[2]? = some false) :=
  ⟨⟨by simp [isOB, gatedControl], by decide⟩,
    claim_C6_gated_enable
      [(0, ⟨"O", "1", "P0", some 2, some true, some "Z"⟩),
        (1, ⟨"I", "0", "P1", none, none, none⟩),
        (3, ⟨"B", "0", "P3", none, none, none⟩)]
      [true, true, true, true] true 2
      (by simp [isOB, gatedControl]) (by decide) (by decide) (by decide)⟩

end Walkin
namespace Walkin

/-! ### Chain-dictionary lemmas -/

theorem alookup_append {α β : Type} [DecidableEq α] (k : α) (d e : List (α × β)) :
    alookup k (d ++ e) =
      match alookup k d with
      | some v => some v
      | none => alookup k e := by
  induction d with
  | nil => simp [alookup]
  | cons q t ih =>
    by_cases hq : q.1 = k
    · simp [alookup, hq]
    · simp [alookup, hq, ih]

theorem alookup_dictInit_self (d : ChainDict) (k : String) :
    alookup k (dictInit d k) = some ((alookup k d).getD []) := by
  unfold dictInit
  cases h : alookup k d with
  | some l => rw [if_pos (by simp [h]), h]; rfl
  | none =>
    rw [if_neg (by simp [h]), alookup_append, h]
    simp [alookup]

theorem alookup_dictInit_ne (d : ChainDict) (k k' : String) (h : k' ≠ k) :
    alookup k' (dictInit d k) = alookup k' d := by
  unfold dictInit
  by_cases hp : (alookup k d).isSome
  · rw [if_pos hp]
  · rw [if_neg hp, alookup_append]
    cases hl : alookup k' d with
    | some l => rfl
    | none =>
      simp only [alookup]
      rw [if_neg (fun he => h he.symm)]

theorem alookup_dictAppend_self (d : ChainDict) (k : String) (x : String) :
    alookup k (dictAppend d k x) = (alookup k d).map (fun l => l ++ [x]) := by
  induction d with
  | nil => simp [alookup, dictAppend]
  | cons q t ih =>
    simp only [dictAppend, List.map_cons]
    by_cases hq : q.1 = k
    · rw [if_pos hq]
      simp only [alookup]
      rw [if_pos hq, if_pos hq]
      rfl
    · rw [if_neg hq]
      simp only [alookup]
      rw [if_neg hq, if_neg hq]
      exact ih

theorem alookup_dictAppend_ne (d : ChainDict) (k x k' : String) (h : k' ≠ k) :
    alookup k' (dictAppend d k x) = alookup k' d := by
  induction d with
  | nil => simp [alookup, dictAppend]
  | cons q t ih =>
    simp only [dictAppend, List.map_cons]
    by_cases hq : q.1 = k
    · rw [if_pos hq]
      simp only [alookup]
      have hne : ¬q.1 = k' := fun he => h (he.symm.trans hq)
      rw [if_neg hne, if_neg hne]
      exact ih
    · rw [if_neg hq]
      simp only [alookup]
      by_cases hb : q.1 = k'
      · rw [if_pos hb, if_pos hb]
      · rw [if_neg hb, if_neg hb]
        exact ih

theorem sample_fold_lookup (key : String) (t : Bool × Bool)
    (qs : List (String × (Bool × Bool))) :
    ∀ (d : ChainDict) (k' : String),
      alookup k' (qs.foldl (fun d2 q => if q.2 = t then dictAppend d2 key q.1 else d2) d) =
        if k' = key then
          (alookup k' d).map
            (fun l => l ++ qs.filterMap (fun q => if q.2 = t then some q.1 else none))
        else alookup k' d := by
  induction qs with
  | nil =>
    intro d k'
    simp only [List.foldl_nil, List.filterMap_nil]
    by_cases hk : k' = key
    · rw [if_pos hk]
      cases h : alookup k' d <;> simp [h]
    · rw [if_neg hk]
  | cons q qs ih =>
    intro d k'
    rw [List.foldl_cons]
    by_cases hq : q.2 = t
    · rw [if_pos hq, ih]
      by_cases hk : k' = key
      · subst hk
        rw [if_pos rfl, if_pos rfl, alookup_dictAppend_self]
        cases h : alookup k' d <;> simp [h, List.filterMap_cons, hq]
      · rw [if_neg hk, if_neg hk, alookup_dictAppend_ne _ _ _ _ hk]
    · rw [if_neg hq, ih]
      by_cases hk : k' = key
      · rw [if_pos hk, if_pos hk]
        cases h : alookup k' d <;> simp [h, List.filterMap_cons, hq]
      · rw [if_neg hk, if_neg hk]

theorem alookup_processIndex (step : StepSummary) (d : ChainDict)
    (p : String × (Bool × Bool)) (k' : String) :
    alookup k' (processIndex step d p) =
      if k' = p.1 then some ((alookup k' d).getD [] ++ branchMatches step p.2)
      else alookup k' d := by
  unfold processIndex
  by_cases h1 : p.2 = (false, true)
  · rw [if_pos h1, sample_fold_lookup]
    by_cases hk : k' = p.1
    · subst hk
      rw [if_pos rfl, if_pos rfl, alookup_dictInit_self, branchMatches, if_pos (Or.inl h1), h1]
      simp
    · rw [if_neg hk, if_neg hk, alookup_dictInit_ne _ _ _ hk]
  · rw [if_neg h1]
    by_cases h2 : p.2 = (true, false)
    · rw [if_pos h2, sample_fold_lookup]
      by_cases hk : k' = p.1
      · subst hk
        rw [if_pos rfl, if_pos rfl, alookup_dictInit_self, branchMatches,
          if_pos (Or.inr h2), h2]
        simp
      · rw [if_neg hk, if_neg hk, alookup_dictInit_ne _ _ _ hk]
    · rw [if_neg h2]
      by_cases hk : k' = p.1
      · subst hk
        rw [if_pos rfl, alookup_dictInit_self, branchMatches, if_neg (by simp [h1, h2])]
        simp
      · rw [if_neg hk, alookup_dictInit_ne _ _ _ hk]

theorem if_append {β : Type} {c : Prop} [Decidable c] (a g : List β) :
    (if c then a ++ g else a) = a ++ (if c then g else []) := by
  split <;> simp

theorem foldl_append_shift {σ β : Type} (g : σ → List β) :
    ∀ (l : List σ) (a : List β),
      l.foldl (fun acc x => acc ++ g x) a = a ++ l.foldl (fun acc x => acc ++ g x) [] := by
  intro l
  induction l with
  | nil => intro a; simp
  | cons x l ih =>
    intro a
    rw [List.foldl_cons, List.foldl_cons, ih, ih (List.nil ++ g x)]
    simp

theorem stepMatchesCode_pairs_cons (step : StepSummary) (k : String)
    (p : String × (Bool × Bool)) (pairs : List (String × (Bool × Bool))) :
    (p :: pairs).foldl (fun a q => if q.1 = k then a ++ branchMatches step q.2 else a) [] =
      (if p.1 = k then branchMatches step p.2 else []) ++
        pairs.foldl (fun a q => if q.1 = k then a ++ branchMatches step q.2 else a) [] := by
  rw [List.foldl_cons]
  simp only [if_append, List.nil_append]
  exact foldl_append_shift (fun q => if q.1 = k then branchMatches step q.2 else []) pairs _

end Walkin
namespace Walkin

theorem foldl_branch_nil (step : StepSummary) (k : String) :
    ∀ pairs : List (String × (Bool × Bool)), (∀ p ∈ pairs, p.1 ≠ k) →
      pairs.foldl (fun a q => if q.1 = k then a ++ branchMatches step q.2 else a) [] = [] := by
  intro pairs
  induction pairs with
  | nil => intro _; rfl
  | cons p pairs ih =>
    intro h
    rw [stepMatchesCode_pairs_cons, if_neg (h p (by simp)), ih (fun q hq => h q (by simp [hq]))]
    rfl

theorem stepMatchesCode_eq_nil (step : StepSummary) (k : String)
    (h : k ∉ (step.extestNames.zip step.extestTrans).map Prod.fst) :
    stepMatchesCode step k = [] := by
  unfold stepMatchesCode
  refine foldl_branch_nil step k _ (fun p hp he => h ?_)
  exact he ▸ List.mem_map_of_mem Prod.fst hp

theorem sessionFold_cons (k : String) (st : StepSummary) (sl : List StepSummary) :
    (st :: sl).foldl (fun acc step => acc ++ stepMatchesCode step k) [] =
      stepMatchesCode st k ++ sl.foldl (fun acc step => acc ++ stepMatchesCode step k) [] := by
  rw [List.foldl_cons]
  have := foldl_append_shift (fun step => stepMatchesCode step k) sl ([] ++ stepMatchesCode st k)
  simpa using this

theorem alookup_processStep_pairs (step : StepSummary) :
    ∀ (pairs : List (String × (Bool × Bool))) (d : ChainDict) (k' : String),
      alookup k' (pairs.foldl (processIndex step) d) =
        if k' ∈ pairs.map Prod.fst ∨ (alookup k' d).isSome then
          some ((alookup k' d).getD [] ++
            pairs.foldl (fun a q => if q.1 = k' then a ++ branchMatches step q.2 else a) [])
        else none := by
  intro pairs
  induction pairs with
  | nil =>
    intro d k'
    cases h : alookup k' d <;> simp [h]
  | cons p pairs ih =>
    intro d k'
    rw [List.foldl_cons, ih, stepMatchesCode_pairs_cons, alookup_processIndex]
    by_cases hk : k' = p.1
    · subst hk
      rw [if_pos rfl]
      have hc1 : p.1 ∈ pairs.map Prod.fst ∨
          (some ((alookup p.1 d).getD [] ++ branchMatches step p.2)).isSome = true :=
        Or.inr rfl
      rw [if_pos hc1]
      have hc2 : p.1 ∈ (p :: pairs).map Prod.fst ∨ (alookup p.1 d).isSome = true :=
        Or.inl (by simp)
      rw [if_pos hc2, if_pos rfl]
      simp
    · rw [if_neg hk, if_neg (show ¬p.1 = k' from fun he => hk he.symm)]
      have hmem : (k' ∈ (p :: pairs).map Prod.fst ∨ (alookup k' d).isSome = true) ↔
          (k' ∈ pairs.map Prod.fst ∨ (alookup k' d).isSome = true) := by
        simp only [List.map_cons, List.mem_cons]
        constructor
        · rintro ((he | hm) | hs)
          · exact absurd he hk
          · exact Or.inl hm
          · exact Or.inr hs
        · rintro (hm | hs)
          · exact Or.inl (Or.inr hm)
          · exact Or.inr hs
      by_cases hc : k' ∈ pairs.map Prod.fst ∨ (alookup k' d).isSome = true
      · rw [if_pos hc, if_pos (hmem.mpr hc)]
        simp
      · rw [if_neg hc, if_neg (fun hcc => hc (hmem.mp hcc))]

theorem alookup_processStep (step : StepSummary) (d : ChainDict) (k' : String) :
    alookup k' (processStep d step) =
      if k' ∈ (step.extestNames.zip step.extestTrans).map Prod.fst ∨ (alookup k' d).isSome then
        some ((alookup k' d).getD [] ++ stepMatchesCode step k')
      else none := by
  unfold processStep stepMatchesCode
  exact alookup_processStep_pairs step _ d k'

theorem alookup_chain_fold (k' : String) :
    ∀ (sl : List StepSummary) (d : ChainDict),
      alookup k' (sl.foldl processStep d) =
        if (∃ step ∈ sl, k' ∈ (step.extestNames.zip step.extestTrans).map Prod.fst) ∨
            (alookup k' d).isSome then
          some ((alookup k' d).getD [] ++ sessionMatches sl k')
        else none := by
  intro sl
  induction sl with
  | nil =>
    intro d
    cases h : alookup k' d <;> simp [h, sessionMatches]
  | cons st sl ih =>
    intro d
    rw [List.foldl_cons, ih, alookup_processStep]
    have hsess : sessionMatches (st :: sl) k' =
        stepMatchesCode st k' ++ sessionMatches sl k' := by
      unfold sessionMatches
      exact sessionFold_cons k' st sl
    by_cases hm : k' ∈ (st.extestNames.zip st.extestTrans).map Prod.fst
    · have hin : k' ∈ (st.extestNames.zip st.extestTrans).map Prod.fst ∨
          (alookup k' d).isSome = true := Or.inl hm
      rw [if_pos hin]
      have hout1 : (∃ step ∈ sl, k' ∈ (step.extestNames.zip step.extestTrans).map Prod.fst) ∨
          (some ((alookup k' d).getD [] ++ stepMatchesCode st k')).isSome = true := Or.inr rfl
      rw [if_pos hout1]
      have hout2 : (∃ step ∈ st :: sl,
          k' ∈ (step.extestNames.zip step.extestTrans).map Prod.fst) ∨
          (alookup k' d).isSome = true := Or.inl ⟨st, by simp, hm⟩
      rw [if_pos hout2, hsess]
      simp
    · by_cases hd : (alookup k' d).isSome = true
      · have hin : k' ∈ (st.extestNames.zip st.extestTrans).map Prod.fst ∨
            (alookup k' d).isSome = true := Or.inr hd
        rw [if_pos hin]
        have hout1 : (∃ step ∈ sl, k' ∈ (step.extestNames.zip step.extestTrans).map Prod.fst) ∨
            (some ((alookup k' d).getD [] ++ stepMatchesCode st k')).isSome = true := Or.inr rfl
        rw [if_pos hout1]
        have hout2 : (∃ step ∈ st :: sl,
            k' ∈ (step.extestNames.zip step.extestTrans).map Prod.fst) ∨
            (alookup k' d).isSome = true := Or.inr hd
        rw [if_pos hout2, hsess]
        simp
      · have hnone : alookup k' d = none := by
          cases h : alookup k' d with
          | none => rfl
          | some l => rw [h] at hd; simp at hd
        have hin : ¬(k' ∈ (st.extestNames.zip st.extestTrans).map Prod.fst ∨
            (alookup k' d).isSome = true) := by
          rintro (h | h)
          · exact hm h
          · exact hd h
        rw [if_neg hin]
        by_cases hex : ∃ step ∈ sl, k' ∈ (step.extestNames.zip step.extestTrans).map Prod.fst
        · have hl1 : (∃ step ∈ sl, k' ∈ (step.extestNames.zip step.extestTrans).map Prod.fst) ∨
              (none : Option (List String)).isSome = true := Or.inl hex
          rw [if_pos hl1]
          have hr1 : (∃ step ∈ st :: sl,
              k' ∈ (step.extestNames.zip step.extestTrans).map Prod.fst) ∨
              (alookup k' d).isSome = true := by
            obtain ⟨s, hs, hms⟩ := hex
            exact Or.inl ⟨s, by simp [hs], hms⟩
          rw [if_pos hr1, hsess, stepMatchesCode_eq_nil st k' hm, hnone]
          simp
        · have hl2 : ¬((∃ step ∈ sl,
              k' ∈ (step.extestNames.zip step.extestTrans).map Prod.fst) ∨
              (none : Option (List String)).isSome = true) := by
            rintro (h | h)
            · exact hex h
            · simp at h
          rw [if_neg hl2]
          have hr2 : ¬((∃ step ∈ st :: sl,
              k' ∈ (step.extestNames.zip step.extestTrans).map Prod.fst) ∨
              (alookup k' d).isSome = true) := by
            rintro (⟨s, hs, hms⟩ | h)
            · rcases List.mem_cons.mp hs with rfl | hs'
              · exact hm hms
              · exact hex ⟨s, hs', hms⟩
            · exact hd h
          rw [if_neg hr2]

end Walkin
namespace Walkin

theorem snd_mem_of_mem_zip {α β : Type} :
    ∀ (l1 : List α) (l2 : List β) (p : α × β), p ∈ l1.zip l2 → p.2 ∈ l2 := by
  intro l1
  induction l1 with
  | nil => intro l2 p h; simp [List.zip] at h
  | cons a t ih =>
    intro l2 p h
    cases l2 with
    | nil => simp [List.zip] at h
    | cons b t2 =>
      rcases List.mem_cons.mp h with rfl | h'
      · simp
      · exact List.mem_cons_of_mem b (ih t2 p h')

/-! ### Claim C10 -/

/-- C10: a driver pin name is a key of the final connectivity chain
dictionary if and only if at least one attributed EXTEST transition was
recorded for it in some walking step; a driver pin with no attributed
transition gets no verdict entry at all. -/
theorem claim_C10_verdict_keys (summary_list : List StepSummary)
    (hwf : ∀ step ∈ summary_list, step.extestNames.length = step.extestTrans.length)
    (name : String) :
    (alookup name (buildChainDict summary_list)).isSome ↔
      ∃ step ∈ summary_list, name ∈ step.extestNames := by
  unfold buildChainDict
  rw [alookup_chain_fold]
  have hnone : alookup name ([] : ChainDict) = none := rfl
  have hmem : ∀ step ∈ summary_list,
      (name ∈ (step.extestNames.zip step.extestTrans).map Prod.fst ↔
        name ∈ step.extestNames) := by
    intro step hst
    rw [List.map_fst_zip _ _ (le_of_eq (hwf step hst))]
  by_cases hex : ∃ step ∈ summary_list,
      name ∈ (step.extestNames.zip step.extestTrans).map Prod.fst
  · rw [if_pos (Or.inl hex)]
    simp only [Option.isSome_some, true_iff]
    obtain ⟨s, hs, hms⟩ := hex
    exact ⟨s, hs, (hmem s hs).mp hms⟩
  · rw [if_neg (by rintro (h | h); exact hex h; rw [hnone] at h; simp at h)]
    simp only [Option.isSome_none]
    constructor
    · intro h; simp at h
    · rintro ⟨s, hs, hms⟩
      exact absurd ⟨s, hs, (hmem s hs).mpr hms⟩ hex

/-- C10 witness: a two-step session where driver `D` records attributed
transitions and `E` never does; `D` gets a chain-dict entry, `E` does not. -/
theorem claim_C10_witness :
    (∀ step ∈ [(⟨["D"], [(false, true)], ["S"], [(false, true)]⟩ : StepSummary),
        ⟨["D"], [(true, false)], ["S"], [(true, false)]⟩],
      step.extestNames.length = step.extestTrans.length) ∧
      ((alookup "D" (buildChainDict
          [⟨["D"], [(false, true)], ["S"], [(false, true)]⟩,
            ⟨["D"], [(true, false)], ["S"], [(true, false)]⟩])).isSome ↔
        ∃ step ∈ [(⟨["D"], [(false, true)], ["S"], [(false, true)]⟩ : StepSummary),
          ⟨["D"], [(true, false)], ["S"], [(true, false)]⟩], "D" ∈ step.extestNames) :=
  ⟨by decide,
   claim_C10_verdict_keys
     [⟨["D"], [(false, true)], ["S"], [(false, true)]⟩,
       ⟨["D"], [(true, false)], ["S"], [(true, false)]⟩]
     (by decide) "D"⟩

/-! ### Classifier refinement lemmas -/

theorem claimStepMatches_pairs_cons (step : StepSummary) (k : String)
    (p : String × (Bool × Bool)) (pairs : List (String × (Bool × Bool))) :
    (p :: pairs).foldl
        (fun a q =>
          if q.1 = k then
            a ++ (step.sampleNames.zip step.sampleTrans).filterMap
              (fun r => if r.2 = q.2 then some r.1 else none)
          else a) [] =
      (if p.1 = k then
          (step.sampleNames.zip step.sampleTrans).filterMap
            (fun r => if r.2 = p.2 then some r.1 else none)
        else []) ++
        pairs.foldl
          (fun a q =>
            if q.1 = k then
              a ++ (step.sampleNames.zip step.sampleTrans).filterMap
                (fun r => if r.2 = q.2 then some r.1 else none)
            else a) [] := by
  rw [List.foldl_cons]
  simp only [if_append, List.nil_append]
  exact foldl_append_shift
    (fun q => if q.1 = k then
      (step.sampleNames.zip step.sampleTrans).filterMap
        (fun r => if r.2 = q.2 then some r.1 else none)
      else []) pairs _

theorem stepMatches_eq_claim (step : StepSummary) (k : String)
    (hp : ∀ t ∈ step.extestTrans, t.1 ≠ t.2) :
    stepMatchesCode step k = claimStepMatches step k := by
  unfold stepMatchesCode claimStepMatches
  have hzip : ∀ p ∈ step.extestNames.zip step.extestTrans, p.2.1 ≠ p.2.2 := by
    intro p hmem
    exact hp p.2 (snd_mem_of_mem_zip _ _ p hmem)
  generalize step.extestNames.zip step.extestTrans = pairs at hzip
  induction pairs with
  | nil => rfl
  | cons p pairs ih =>
    rw [stepMatchesCode_pairs_cons, claimStepMatches_pairs_cons,
      ih (fun q hq => hzip q (by simp [hq]))]
    have hpt : p.2.1 ≠ p.2.2 := hzip p (by simp)
    have hb : branchMatches step p.2 =
        (step.sampleNames.zip step.sampleTrans).filterMap
          (fun r => if r.2 = p.2 then some r.1 else none) := by
      unfold branchMatches
      rcases p with ⟨n, a, b⟩
      cases a <;> cases b <;> simp_all
    rw [hb]

theorem claimMatched_cons (k : String) (st : StepSummary) (sl : List StepSummary) :
    claimMatched (st :: sl) k = claimStepMatches st k ++ claimMatched sl k := by
  unfold claimMatched
  rw [List.foldl_cons]
  have := foldl_append_shift (fun step => claimStepMatches step k) sl
    ([] ++ claimStepMatches st k)
  simpa using this

theorem sessionMatches_eq_claimMatched (summary_list : List StepSummary) (k : String)
    (hwf : ∀ step ∈ summary_list, ∀ t ∈ step.extestTrans, t.1 ≠ t.2) :
    sessionMatches summary_list k = claimMatched summary_list k := by
  induction summary_list with
  | nil => rfl
  | cons st sl ih =>
    have h1 : sessionMatches (st :: sl) k = stepMatchesCode st k ++ sessionMatches sl k := by
      unfold sessionMatches
      exact sessionFold_cons k st sl
    rw [h1, claimMatched_cons, stepMatches_eq_claim st k (hwf st (by simp)),
      ih (fun s hs => hwf s (by simp [hs]))]

theorem classifyList_eq_claimVerdict (L : List String) :
    classifyList L = claimVerdict L := by
  unfold classifyList claimVerdict
  rcases L with _ | ⟨a, _ | ⟨b, _ | ⟨c, t⟩⟩⟩
  · simp
  · simp
  · by_cases h : a = b <;> simp [h]
  · simp only [List.length_cons]
    rw [if_neg (by rintro ⟨h2, _⟩; omega),
      if_neg (by omega : ¬(t.length + 1 + 1 + 1 = 2)),
      if_pos (by omega : (2:Nat) < t.length + 1 + 1 + 1)]

/-! ### Claim C1 -/

/-- C1: for every well-formed session summary (driver name and transition
lists recorded in lockstep, transitions between differing bit values), every
driver pin in the final chain dictionary carries exactly the match list the
spec describes — per step, every attributed observed pin whose transition
direction equals that driver transition's direction, accumulated across all
walking steps — and its printed verdict agrees with the spec's table:
Connected on two identical matches, Interference on more than two, Partial
on exactly one, NotConnected otherwise. -/
theorem claim_C1_classifier (summary_list : List StepSummary)
    (hwf : ∀ step ∈ summary_list,
      step.extestNames.length = step.extestTrans.length ∧
      ∀ t ∈ step.extestTrans, t.1 ≠ t.2)
    (k : String) (L : List String)
    (hL : alookup k (buildChainDict summary_list) = some L) :
    L = claimMatched summary_list k ∧ classifyList L = claimVerdict L := by
  have hses : L = sessionMatches summary_list k := by
    unfold buildChainDict at hL
    rw [alookup_chain_fold] at hL
    by_cases hc : (∃ step ∈ summary_list,
        k ∈ (step.extestNames.zip step.extestTrans).map Prod.fst) ∨
        (alookup k ([] : ChainDict)).isSome = true
    · rw [if_pos hc] at hL
      have hn : alookup k ([] : ChainDict) = none := rfl
      rw [hn] at hL
      simpa using hL.symm
    · rw [if_neg hc] at hL
      exact absurd hL (by simp)
  constructor
  · rw [hses]
    exact sessionMatches_eq_claimMatched summary_list k (fun s hs => (hwf s hs).2)
  · exact classifyList_eq_claimVerdict L

/-- C1 witness: a walking-zeros plus walking-ones session in which driver
`D` matches observed pin `S` on both polarity passes; the accumulated list
is `[S, S]` and the verdict Connected(S). -/
theorem claim_C1_witness :
    (∀ step ∈ [(⟨["D"], [(false, true)], ["S"], [(false, true)]⟩ : StepSummary),
        ⟨["D"], [(true, false)], ["S"], [(true, false)]⟩],
      step.extestNames.length = step.extestTrans.length ∧
        ∀ t ∈ step.extestTrans, t.1 ≠ t.2) ∧
      (["S", "S"] = claimMatched
          [⟨["D"], [(false, true)], ["S"], [(false, true)]⟩,
            ⟨["D"], [(true, false)], ["S"], [(true, false)]⟩] "D" ∧
        classifyList ["S", "S"] = claimVerdict ["S", "S"]) :=
  ⟨by decide,
   claim_C1_classifier
     [⟨["D"], [(false, true)], ["S"], [(false, true)]⟩,
       ⟨["D"], [(true, false)], ["S"], [(true, false)]⟩]
     (by decide) "D" ["S", "S"] (by decide)⟩

end Walkin
namespace Walkin

/-! ### Session accumulator lemmas (claim C9) -/

theorem set_urc_bits_ok_append :
    ∀ (bits_string_list : List (List Bool)) (bit_info : PinMap) (dr_init_bits : List Bool)
      (sample_bsdl : PinMap) (readback : Nat → List Bool) (dr_init_bits_sample : List Bool)
      (walkin_state : Int) (summary_list summary_out : List StepSummary),
      set_urc_bits bits_string_list bit_info dr_init_bits sample_bsdl readback
          dr_init_bits_sample walkin_state summary_list = .ok summary_out →
      ∃ fresh, summary_out = summary_list ++ fresh ∧
        fresh.length = bits_string_list.length := by
  intro bl
  induction bl with
  | nil =>
    intro bi di sb rb drs ws sl sl' h
    unfold set_urc_bits at h
    injection h with h
    exact ⟨[], by simp [h], rfl⟩
  | cons bs rest ih =>
    intro bi di sb rb drs ws sl sl' h
    unfold set_urc_bits at h
    cases h1 : dr_out_changes_lookup di.reverse bs.reverse bi ws with
    | error e => rw [h1] at h; cases h
    | ok ex =>
      rw [h1] at h
      dsimp only at h
      cases h2 : dr_out_changes_lookup drs.reverse (rb 0).reverse sb ws with
      | error e => rw [h2] at h; cases h
      | ok sm =>
        rw [h2] at h
        obtain ⟨fresh, hf, hlen⟩ :=
          ih bi bs sb (fun i => rb (i + 1)) (rb 0) ws (sl ++ [⟨ex.1, ex.2, sm.1, sm.2⟩]) sl' h
        exact ⟨⟨ex.1, ex.2, sm.1, sm.2⟩ :: fresh, by simp [hf], by simp [hlen]⟩

/-! ### Claim C9 -/

/-- C9 counterexample: the claim states the Classifier consumes and clears
the accumulator so that after classification it is empty.  `view_summary`
only reads the global `summary_list` (it never assigns it): on a one-step
session the accumulator it leaves behind is that same non-empty list. -/
theorem claim_C9_counterexample :
    (view_summary [⟨["D"], [(false, true)], ["S"], [(false, true)]⟩]).2 ≠ [] := by
  decide

/-- C9 (amended): the accumulator starts empty at session start and receives
exactly one step record per walking vector, appended in order; the
Classifier (`view_summary`) reads it unchanged — it does not clear it — and
the `main` session loop resets it to empty immediately after the
classification call, so the accumulator is empty when the next pass begins. -/
theorem claim_C9_amended :
    (∀ (bits_string_list : List (List Bool)) (bit_info : PinMap) (dr_init_bits : List Bool)
        (sample_bsdl : PinMap) (readback : Nat → List Bool) (dr_init_bits_sample : List Bool)
        (walkin_state : Int) (summary_list summary_out : List StepSummary),
        set_urc_bits bits_string_list bit_info dr_init_bits sample_bsdl readback
            dr_init_bits_sample walkin_state summary_list = .ok summary_out →
        ∃ fresh, summary_out = summary_list ++ fresh ∧
          fresh.length = bits_string_list.length) ∧
      (∀ summary_list : List StepSummary, (view_summary summary_list).2 = summary_list) ∧
      (∀ summary_list : List StepSummary, (main_summary_phase summary_list).2 = []) :=
  ⟨set_urc_bits_ok_append, fun _ => rfl, fun _ => rfl⟩

/-- C9 witness: a one-vector walking pass starting from an empty accumulator
appends exactly one record; the classifier leaves a concrete accumulator
unchanged and the main loop's reset empties it. -/
theorem claim_C9_witness :
    (∃ fresh, [(⟨[], [], [], []⟩ : StepSummary)] = ([] : List StepSummary) ++ fresh ∧
        fresh.length = [[true]].length) ∧
      (view_summary [(⟨["D"], [(false, true)], ["S"], [(false, true)]⟩ : StepSummary)]).2 =
        [⟨["D"], [(false, true)], ["S"], [(false, true)]⟩] ∧
      (main_summary_phase
        [(⟨["D"], [(false, true)], ["S"], [(false, true)]⟩ : StepSummary)]).2 = [] :=
  ⟨claim_C9_amended.1 [[true]] [] [false] [] (fun _ => [true]) [true] 0 []
      [⟨[], [], [], []⟩] rfl,
    claim_C9_amended.2.1 _, claim_C9_amended.2.2 _⟩

end Walkin
